import Mathlib

/-!
Verification of `tools/generate_embeddings.py` and `tools/query_embedding.py`
from the `arxiv` repository.

Modelling conventions (shallow embedding):
* A 32-bit float is represented by its bit pattern, a `Nat` together with the
  side condition `< 2^32` where it matters.  Serialization in the source
  (`embedding.astype('float32').tobytes()`) operates on the in-memory bit
  patterns, so the codec is exactly a word/byte codec and nothing about
  floating-point arithmetic is needed.
* Byte strings are `List Nat` with the side condition `< 256` where it matters.
* The SQLite store is a `Store` structure: the externally-owned `papers` table
  and the `embeddings` table, the latter a list of rows keyed by `paper_id`
  (its declared PRIMARY KEY).  `INSERT OR REPLACE` deletes every row with the
  conflicting key and inserts the new row, which is `upsert` below.
* The sentence-transformer model is an abstract parameter
  `encode : String → List Nat` producing the bit patterns of one vector per
  input text; the pipeline maps it over texts one at a time (order-preserving,
  as `model.encode` is).
* Printed output and commits are recorded as a trace of `Event`s.
-/

namespace ArxivEmbed

/-! Vector codec: `serialize_embedding` / `deserialize_embedding`. -/

/-- Little-endian byte decomposition of one 32-bit word, as performed by
`numpy.tobytes()` on a `float32` array element (native = little-endian). -/
def word32ToBytesLE (w : Nat) : List Nat :=
  [w % 256, w / 256 % 256, w / 256 ^ 2 % 256, w / 256 ^ 3 % 256]

/-- Model of `serialize_embedding(embedding)`, i.e. `embedding.astype('float32').tobytes()` —
the concatenation of each component's four little-endian bytes. -/
def serialize_embedding (v : List Nat) : List Nat :=
  (v.map word32ToBytesLE).flatten

/-- Little-endian recomposition of four bytes into one 32-bit word. -/
def bytesToWord32LE (b0 b1 b2 b3 : Nat) : Nat :=
  b0 + 256 * b1 + 256 ^ 2 * b2 + 256 ^ 3 * b3

/-- Reinterpret a byte string as consecutive 4-byte little-endian words, the
way `np.frombuffer(data, dtype='float32')` reinterprets its buffer. -/
def chunkWords32 : List Nat → List Nat
  | b0 :: b1 :: b2 :: b3 :: rest => bytesToWord32LE b0 b1 b2 b3 :: chunkWords32 rest
  | _ => []

/-- Model of `deserialize_embedding(data)`, i.e. `np.frombuffer(data, dtype='float32')`.
`frombuffer` raises `ValueError` ("buffer size must be a multiple of element
size") when the length is not a multiple of 4, modelled as `none`. -/
def deserialize_embedding (data : List Nat) : Option (List Nat) :=
  if data.length % 4 = 0 then some (chunkWords32 data) else none

/-! Store model.

The SQLite database `index.db`: the externally-owned `papers` table
(id, title, abstract) and the `embeddings` table created by this tool
(paper_id TEXT PRIMARY KEY, model TEXT, vector BLOB, created).  The `created`
timestamp column plays no role in any claim and is omitted from the row model.
-/

structure Paper where
  id : String
  title : String
  abstract : String
deriving DecidableEq, Repr

structure EmbRow where
  paper_id : String
  model : String
  /-- The stored BLOB: the serialized little-endian float32 bytes. -/
  vector : List Nat
deriving DecidableEq, Repr

structure Store where
  papers : List Paper
  embeddings : List EmbRow
deriving DecidableEq, Repr

/-- Rows of the embeddings table holding the given paper_id. -/
def rowsFor (tbl : List EmbRow) (pid : String) : List EmbRow :=
  tbl.filter (fun e => e.paper_id == pid)

/-- Test for `pid IN (SELECT paper_id FROM embeddings)`. -/
def hasEmbedding (tbl : List EmbRow) (pid : String) : Bool :=
  tbl.any (fun e => e.paper_id == pid)

/-- Model of `INSERT OR REPLACE INTO embeddings ...`: on a PRIMARY KEY conflict SQLite
deletes the conflicting row(s) and inserts the new row. -/
def upsert (tbl : List EmbRow) (row : EmbRow) : List EmbRow :=
  tbl.filter (fun e => !(e.paper_id == row.paper_id)) ++ [row]

/-- The WHERE clause of the selection query:
`title != '' AND abstract != '' AND id NOT IN (SELECT paper_id FROM embeddings)`. -/
def needsEmbedding (tbl : List EmbRow) (p : Paper) : Bool :=
  !(p.title == "") && !(p.abstract == "") && !(hasEmbedding tbl p.id)

/-- The selection step of `generate_embeddings` (lines 96–106): the eligible
papers, with a `LIMIT {limit}` clause appended only when `limit` is truthy
(Python `if limit:` — `None` and `0` are falsy).  SQLite treats a negative
LIMIT as "no limit". -/
def selectPapers (st : Store) (limit : Option Int) : List Paper :=
  let elig := st.papers.filter (needsEmbedding st.embeddings)
  match limit with
  | none => elig
  | some n => if n = 0 then elig else if n < 0 then elig else elig.take n.toNat

/-- Model of `text = f"{title}. {abstract}" if title and abstract else (title or abstract)`. -/
def combineText (title abstract : String) : String :=
  if title ≠ "" ∧ abstract ≠ "" then title ++ ". " ++ abstract
  else if title ≠ "" then title else abstract

/-- The row written for one paper: id, model name and the serialized vector. -/
def rowOf (encode : String → List Nat) (modelName : String) (p : Paper) : EmbRow :=
  { paper_id := p.id, model := modelName,
    vector := serialize_embedding (encode (combineText p.title p.abstract)) }

/-- One observable event of a run: a line printed to stdout, a progress line
(printed as `progressLineStr done total`), or a `conn.commit()`. -/
inductive Event where
  | msg (s : String)
  | progress (done total : Nat)
  | commit
deriving DecidableEq, Repr

/-- Python `f"{x:.1f}"` of the non-negative percentage value scaled by 10 and
rounded to the nearest integer (ties to even, as float formatting rounds):
one digit after the decimal point. -/
def fmt1 (tenths : Nat) : String :=
  toString (tenths / 10) ++ "." ++ String.singleton (Nat.digitChar (tenths % 10))

/-- Nearest integer to `a / b`, ties to even (the IEEE and CPython tie rule). -/
def roundHalfEvenDiv (a b : Nat) : Nat :=
  let q := a / b
  let r := a % b
  if 2 * r < b then q
  else if b < 2 * r then q + 1
  else if q % 2 = 0 then q else q + 1

/-- Nearest integer to `num * 2^c / den`, ties to even (`c` may be negative). -/
def scaledRound (num den : Nat) (c : Int) : Nat :=
  if 0 ≤ c then roundHalfEvenDiv (num * 2 ^ c.toNat) den
  else roundHalfEvenDiv num (den * 2 ^ (-c).toNat)

/-- Whether `2^g ≤ num / den`, by exact integer comparison. -/
def pow2LeRat (num den : Nat) (g : Int) : Bool :=
  if 0 ≤ g then decide (den * 2 ^ g.toNat ≤ num)
  else decide (den ≤ num * 2 ^ (-g).toNat)

/-- Bit length of `n`, structurally recursive on a fuel bound (`fuel = n`
suffices, as the argument at least halves each step). -/
def bitLenAux : Nat → Nat → Nat
  | 0, _ => 0
  | _ + 1, 0 => 0
  | fuel + 1, n + 1 => bitLenAux fuel ((n + 1) / 2) + 1

/-- Bit length of `n`: `0` for `0`, and `⌊log₂ n⌋ + 1` for positive `n`
(Python's `int.bit_length`).  For positive `num`, `den` the difference
`bitLen num - bitLen den` is within one of `⌊log₂ (num/den)⌋`, which the
exact `pow2LeRat` test then pins down. -/
def bitLen (n : Nat) : Nat := bitLenAux n n

/-- The IEEE binary64 value (round to nearest, ties to even, 53-bit
significand) of the positive rational `num / den`, as a dyadic pair `(m, e)`
denoting `m * 2^e` with `2^52 ≤ m ≤ 2^53`.  The exponent is unbounded in the
model (no overflow or underflow); on the normal range — where every reachable
percentage lies — this is exactly binary64 rounding.  Zero inputs give
`(0, 0)`. -/
def floatRound53 (num den : Nat) : Nat × Int :=
  if num = 0 ∨ den = 0 then (0, 0)
  else
    let g : Int := (bitLen num : Int) - (bitLen den : Int)
    let flog : Int := if pow2LeRat num den g then g else g - 1
    let c : Int := 52 - flog
    (scaledRound num den c, -c)

/-- Value of `(processed / total) * 100` as the program computes it —
`processed / total` correctly rounded to binary64, then `* 100` correctly
rounded to binary64 — then rounded to tenths of a percent exactly as
`f"{percent:.1f}"` rounds the resulting double: to nearest, ties to even on
the double's exact (dyadic) value.  `total = 0` raises `ZeroDivisionError`
in Python and is unreachable (the selection is non-empty); it maps to 0. -/
def pctTenths (processed total : Nat) : Nat :=
  let d1 := floatRound53 processed total
  let d2 := floatRound53 (d1.1 * 100) 1
  let e2 : Int := d2.2 + d1.2
  if 0 ≤ e2 then d2.1 * 10 * 2 ^ e2.toNat
  else roundHalfEvenDiv (d2.1 * 10) (2 ^ (-e2).toNat)

/-- The progress line printed after each batch (line 145):
`f"Processed {processed}/{total_papers} papers ({percent:.1f}% complete)"`. -/
def progressLineStr (processed total : Nat) : String :=
  "Processed " ++ toString processed ++ "/" ++ toString total ++
    " papers (" ++ fmt1 (pctTenths processed total) ++ "% complete)"

/-- One iteration of the batch loop (lines 117–149), structurally recursive on
a `fuel` bound on the number of remaining papers (each iteration strictly
shrinks the remaining list when `0 < b`, so `fuel = ps.length` is enough).
Per iteration: take `b` papers, upsert one row per paper, bump `processed`,
print the progress line, and commit when `processed % 100 == 0`. -/
def processBatchesAux (encode : String → List Nat) (modelName : String)
    (total b : Nat) : Nat → List Paper → Nat → List EmbRow → List EmbRow × List Event
  | _, [], _, tbl => (tbl, [])
  | 0, _ :: _, _, tbl => (tbl, [])
  | fuel + 1, p :: ps, processed, tbl =>
    let batch := (p :: ps).take b
    let rest := (p :: ps).drop b
    let tbl' := batch.foldl (fun t q => upsert t (rowOf encode modelName q)) tbl
    let processed' := processed + batch.length
    let res := processBatchesAux encode modelName total b fuel rest processed' tbl'
    (res.1, Event.progress processed' total ::
      ((if processed' % 100 = 0 then [Event.commit] else []) ++ res.2))

/-- The batch loop (lines 117–149).  `batchSize = 0` makes Python's
`range(0, total, 0)` raise `ValueError` before any iteration; that error case
is modelled as an empty run and excluded by the `0 < batchSize` hypotheses of
the theorems below. -/
def processBatches (encode : String → List Nat) (modelName : String)
    (total batchSize : Nat) (ps : List Paper) (processed : Nat)
    (tbl : List EmbRow) : List EmbRow × List Event :=
  if batchSize = 0 then (tbl, [])
  else processBatchesAux encode modelName total batchSize ps.length ps processed tbl

/-- Result of one run: the final store plus the trace of prints and commits. -/
structure RunResult where
  store : Store
  trace : List Event
deriving Repr

/-- Model of `generate_embeddings(cache_dir, model_name, limit, batch_size)` with no
`query` argument (lines 50–154), given an abstract `encode`.  The database
file exists and table creation is schema-only, so the store passes through
unchanged on the no-work path. -/
def generate_embeddings (encode : String → List Nat) (st : Store)
    (modelName : String) (limit : Option Int) (batchSize : Nat) : RunResult :=
  let selected := selectPapers st limit
  if selected.isEmpty then
    { store := st, trace := [Event.msg "No papers need embeddings."] }
  else
    let total := selected.length
    let res := processBatches encode modelName total batchSize selected 0 st.embeddings
    { store := { papers := st.papers, embeddings := res.1 },
      trace := Event.msg ("Found " ++ toString total ++ " papers to process") ::
        (res.2 ++ [Event.commit,
          Event.msg ("Done! Generated embeddings for " ++ toString total ++ " papers.")]) }

/-! Single-item entry points. -/

/-- Result of a process-style entry point: exit code, stdout lines, stderr
lines, and the store left behind. -/
structure ExitResult where
  exitCode : Nat
  stdout : List String
  stderr : List String
  store : Store
deriving Repr

/-- Model of `generate_paper_embedding(cache_dir, paper_id, model_name)` (lines
157–208), given an abstract `encode`.  `SELECT ... WHERE id = ?` with
`fetchone()` returns the first matching row.  Note the order in the source:
the paper is fetched and the not-found / empty-content checks run *before*
the embeddings table is ensured, so on those error paths the store is
entirely untouched. -/
def generate_paper_embedding (encode : String → List Nat) (st : Store)
    (pid : String) (modelName : String) : ExitResult :=
  match st.papers.find? (fun p => p.id == pid) with
  | none =>
    { exitCode := 1, stdout := ["ERROR: Paper " ++ pid ++ " not found"],
      stderr := [], store := st }
  | some p =>
    if p.title = "" ∧ p.abstract = "" then
      { exitCode := 1, stdout := ["ERROR: Paper " ++ p.id ++ " has no title or abstract"],
        stderr := [], store := st }
    else
      { exitCode := 0, stdout := ["OK: Generated embedding for " ++ p.id],
        stderr := [],
        store := { papers := st.papers,
                   embeddings := upsert st.embeddings (rowOf encode modelName p) } }

/-- Model of `','.join(map(str, embedding.astype(np.float32)))`: the printed vector,
one rendered component per float, comma-separated. -/
def renderFloats (render : Nat → String) (v : List Nat) : String :=
  String.intercalate "," (v.map render)

/-- Model of `query = os.environ.get('QUERY') or (sys.argv[1] if len(sys.argv) > 1 else '')`
(`query_embedding.py` line 22).  Python `x or y` yields `x` when `x` is truthy
(set and non-empty), else `y`; `args` is `sys.argv[1:]`. -/
def pickQuery (env : Option String) (args : List String) : String :=
  match env with
  | some q => if q ≠ "" then q else args.headD ""
  | none => args.headD ""

/-- The `query_embedding.py` module body (lines 19–32) after a successful
import, given an abstract `encode` and a float renderer.  An empty resolved
query prints `ERROR: No query provided` to stderr and exits 1; otherwise the
embedding of the resolved query is printed to stdout. -/
def query_embedding (encode : String → List Nat) (render : Nat → String)
    (env : Option String) (args : List String) : Nat × List String × List String :=
  let query := pickQuery env args
  if query = "" then (1, [], ["ERROR: No query provided"])
  else (0, [renderFloats render (encode query)], [])

/-! Spec-side descriptions used to state trace properties. -/

/-- Cumulative processed counts of a batch loop: batch size `b`, `r` records
remaining, `done` already processed; structurally recursive on a `fuel` bound
on `r` (each step processes `min b r ≥ 1` records when `0 < b`). -/
def batchDonesAux (b : Nat) : Nat → Nat → Nat → List Nat
  | _, 0, _ => []
  | 0, _ + 1, _ => []
  | fuel + 1, r + 1, done =>
    (done + min b (r + 1)) ::
      batchDonesAux b fuel (r + 1 - min b (r + 1)) (done + min b (r + 1))

/-- Cumulative processed counts of a run over `r` records with batch size `b`,
starting from `done` already processed. -/
def batchDones (b r done : Nat) : List Nat :=
  if b = 0 then [] else batchDonesAux b r r done

/-- The loop trace determined by the cumulative counts: one progress event per
batch, followed by a commit exactly when the count is a multiple of 100. -/
def traceFromDones (total : Nat) (dones : List Nat) : List Event :=
  (dones.map (fun d =>
    Event.progress d total :: (if d % 100 = 0 then [Event.commit] else []))).flatten

/-- The `(done, total)` pairs of the progress lines in a trace, in order. -/
def progressPairs (tr : List Event) : List (Nat × Nat) :=
  tr.filterMap (fun e => match e with
    | Event.progress d t => some (d, t)
    | _ => none)

/-- Number of commits in a trace. -/
def commitCount (tr : List Event) : Nat :=
  (tr.filter (fun e => e == Event.commit)).length

/-- Per-entry increments of a cumulative counts list, relative to `prev`. -/
def incrementsFrom (prev : Nat) (l : List Nat) : List Nat :=
  List.zipWith (fun a c => a - c) l (prev :: l)

/-- Per-batch increments of a cumulative counts list (starting from 0). -/
def increments (l : List Nat) : List Nat :=
  incrementsFrom 0 l

theorem length_word32ToBytesLE (w : Nat) : (word32ToBytesLE w).length = 4 := rfl

theorem length_serialize (v : List Nat) :
    (serialize_embedding v).length = 4 * v.length := by
  induction v with
  | nil => rfl
  | cons w ws ih =>
    simp only [serialize_embedding, List.map_cons, List.flatten_cons,
      List.length_append, List.length_cons, length_word32ToBytesLE] at *
    omega

theorem roundWord (w : Nat) (hw : w < 2 ^ 32) :
    bytesToWord32LE (w % 256) (w / 256 % 256) (w / 256 ^ 2 % 256) (w / 256 ^ 3 % 256) = w := by
  simp only [bytesToWord32LE]
  omega

theorem chunkWords32_serialize (v : List Nat) (hv : ∀ w ∈ v, w < 2 ^ 32) :
    chunkWords32 (serialize_embedding v) = v := by
  induction v with
  | nil => rfl
  | cons w ws ih =>
    have hw : w < 2 ^ 32 := hv w (List.mem_cons_self w ws)
    have hws : ∀ x ∈ ws, x < 2 ^ 32 := fun x hx => hv x (List.mem_cons_of_mem w hx)
    simp only [serialize_embedding, List.map_cons, List.flatten_cons, word32ToBytesLE,
      List.cons_append, List.nil_append, chunkWords32]
    rw [roundWord w hw]
    exact congrArg (w :: ·) (ih hws)

/-- C1: For every vector `v` of 32-bit floats (bit patterns `< 2^32`), of any
non-negative length, `deserialize_embedding (serialize_embedding v) = v`
bit-exact: the round trip is the identity. -/
theorem serialize_roundtrip (v : List Nat) (hv : ∀ w ∈ v, w < 2 ^ 32) :
    deserialize_embedding (serialize_embedding v) = some v := by
  unfold deserialize_embedding
  rw [length_serialize]
  simp only [Nat.mul_mod_right, if_true]
  exact congrArg some (chunkWords32_serialize v hv)

theorem serialize_roundtrip_witness :
    (∀ w ∈ [0, 1, 3212836864, 4294967295], w < 2 ^ 32) ∧
      deserialize_embedding (serialize_embedding [0, 1, 3212836864, 4294967295]) =
        some [0, 1, 3212836864, 4294967295] :=
  ⟨by decide, serialize_roundtrip [0, 1, 3212836864, 4294967295] (by decide)⟩

theorem length_chunkWords32 (l : List Nat) :
    (chunkWords32 l).length = l.length / 4 := by
  induction l using chunkWords32.induct with
  | case1 b0 b1 b2 b3 rest ih =>
    simp only [chunkWords32, List.length_cons, ih]
    omega
  | case2 l h =>
    rcases l with _ | ⟨a, _ | ⟨b, _ | ⟨c, _ | ⟨d, rest⟩⟩⟩⟩
    · simp [chunkWords32]
    · simp [chunkWords32]
    · simp [chunkWords32]
    · simp [chunkWords32]
    · exact absurd rfl (h a b c d rest)

theorem getD_chunkWords32 (i : Nat) :
    ∀ l : List Nat, 4 * i + 3 < l.length →
      (chunkWords32 l).getD i 0 =
        bytesToWord32LE (l.getD (4 * i) 0) (l.getD (4 * i + 1) 0)
          (l.getD (4 * i + 2) 0) (l.getD (4 * i + 3) 0) := by
  induction i with
  | zero =>
    intro l hl
    match l with
    | b0 :: b1 :: b2 :: b3 :: rest => simp [chunkWords32, List.getD]
  | succ i ih =>
    intro l hl
    match l with
    | b0 :: b1 :: b2 :: b3 :: rest =>
      have h' : 4 * i + 3 < rest.length := by
        simp only [List.length_cons] at hl; omega
      calc (chunkWords32 (b0 :: b1 :: b2 :: b3 :: rest)).getD (i + 1) 0
          = (chunkWords32 rest).getD i 0 := by simp [chunkWords32]
        _ = bytesToWord32LE (rest.getD (4 * i) 0) (rest.getD (4 * i + 1) 0)
              (rest.getD (4 * i + 2) 0) (rest.getD (4 * i + 3) 0) := ih rest h'
        _ = _ := by
              have key : ∀ (x0 x1 x2 x3 : ℕ) (t : List ℕ) (n : ℕ),
                  (x0 :: x1 :: x2 :: x3 :: t).getD (n + 4) 0 = t.getD n 0 := by
                intro x0 x1 x2 x3 t n
                rw [show n + 4 = n + 1 + 1 + 1 + 1 from by ring]
                simp only [List.getD_cons_succ]
              rw [show 4 * (i + 1) + 3 = 4 * i + 3 + 4 from by ring,
                show 4 * (i + 1) + 2 = 4 * i + 2 + 4 from by ring,
                show 4 * (i + 1) + 1 = 4 * i + 1 + 4 from by ring,
                show 4 * (i + 1) = 4 * i + 4 from by ring]
              simp only [key]

theorem mem_chunkWords32_lt (l : List Nat) (hl : ∀ b ∈ l, b < 256) :
    ∀ w ∈ chunkWords32 l, w < 2 ^ 32 := by
  induction l using chunkWords32.induct with
  | case1 b0 b1 b2 b3 rest ih =>
    intro w hw
    simp only [chunkWords32, List.mem_cons] at hw
    rcases hw with hw | hw
    · have h0 : b0 < 256 := hl b0 (by simp)
      have h1 : b1 < 256 := hl b1 (by simp)
      have h2 : b2 < 256 := hl b2 (by simp)
      have h3 : b3 < 256 := hl b3 (by simp)
      subst hw
      simp only [bytesToWord32LE]
      omega
    · exact ih (fun b hb => hl b (by simp [hb])) w hw
  | case2 l h =>
    rcases l with _ | ⟨a, _ | ⟨b, _ | ⟨c, _ | ⟨d, rest⟩⟩⟩⟩
    · intro w hw; cases hw
    · intro w hw; cases hw
    · intro w hw; cases hw
    · intro w hw; cases hw
    · exact absurd rfl (h a b c d rest)

/-- C7: `deserialize_embedding` fails (raises, modelled `none`) exactly when the
byte count is not a multiple of 4; on a multiple-of-4 byte string it succeeds
with a vector of `length / 4` components, each component the little-endian
32-bit word of its four bytes (hence a 32-bit value when the input is bytes). -/
theorem deserialize_embedding_spec (data : List Nat) :
    (data.length % 4 ≠ 0 → deserialize_embedding data = none) ∧
    (data.length % 4 = 0 →
      ∃ v, deserialize_embedding data = some v ∧
        v.length = data.length / 4 ∧
        (∀ i, i < v.length →
          v.getD i 0 = bytesToWord32LE (data.getD (4 * i) 0) (data.getD (4 * i + 1) 0)
            (data.getD (4 * i + 2) 0) (data.getD (4 * i + 3) 0)) ∧
        ((∀ b ∈ data, b < 256) → ∀ w ∈ v, w < 2 ^ 32)) := by
  constructor
  · intro h
    simp [deserialize_embedding, h]
  · intro h
    refine ⟨chunkWords32 data, by simp [deserialize_embedding, h], length_chunkWords32 data, ?_, ?_⟩
    · intro i hi
      rw [length_chunkWords32] at hi
      exact getD_chunkWords32 i data (by omega)
    · exact mem_chunkWords32_lt data

theorem deserialize_embedding_spec_witness :
    deserialize_embedding [1, 2, 3] = none ∧
      deserialize_embedding [1, 0, 0, 0, 0, 0, 0, 64] = some [1, 1073741824] :=
  ⟨(deserialize_embedding_spec [1, 2, 3]).1 (by decide), by decide⟩

/-! Claim C3: the selection step. -/

/-- C3 (amended): the selection step returns exactly the Source Records whose
title and abstract are both non-empty and which have no Embedding Record at
scan time — membership characterization plus order preservation — truncated to
at most `limit` records when a *positive* cap is supplied; a cap of `0` (falsy
in Python) or a negative cap (unlimited in SQLite) selects everything; records
failing either condition are never selected. -/
theorem selectPapers_spec (st : Store) (limit : Option Int) :
    (∀ p, p ∈ selectPapers st none ↔
      p ∈ st.papers ∧ p.title ≠ "" ∧ p.abstract ≠ "" ∧
        hasEmbedding st.embeddings p.id = false) ∧
    (∀ p ∈ selectPapers st limit,
      p ∈ st.papers ∧ p.title ≠ "" ∧ p.abstract ≠ "" ∧
        hasEmbedding st.embeddings p.id = false) ∧
    (∀ n : Int, 0 < n →
      selectPapers st (some n) = (selectPapers st none).take n.toNat ∧
        (selectPapers st (some n)).length ≤ n.toNat) ∧
    (∀ n : Int, n ≤ 0 → selectPapers st (some n) = selectPapers st none) := by
  have hmem : ∀ p, p ∈ selectPapers st none ↔
      p ∈ st.papers ∧ p.title ≠ "" ∧ p.abstract ≠ "" ∧
        hasEmbedding st.embeddings p.id = false := by
    intro p
    simp only [selectPapers, List.mem_filter, needsEmbedding, Bool.and_eq_true,
      Bool.not_eq_true', beq_eq_false_iff_ne, ne_eq]
    tauto
  refine ⟨hmem, ?_, ?_, ?_⟩
  · intro p hp
    rw [← hmem]
    rcases limit with _ | n
    · exact hp
    · by_cases h0 : n = 0
      · simpa [selectPapers, h0] using hp
      · by_cases h1 : n < 0
        · simpa [selectPapers, h0, h1] using hp
        · have hrw : selectPapers st (some n) =
              (selectPapers st none).take n.toNat := by
            simp [selectPapers, h0, h1]
          rw [hrw] at hp
          exact List.mem_of_mem_take hp
  · intro n hn
    have h0 : ¬ (n = 0) := by omega
    have h1 : ¬ (n < 0) := by omega
    have hrw : selectPapers st (some n) = (selectPapers st none).take n.toNat := by
      simp [selectPapers, h0, h1]
    refine ⟨hrw, ?_⟩
    rw [hrw, List.length_take]
    exact min_le_left _ _
  · intro n hn
    rcases eq_or_lt_of_le hn with h | h
    · simp [selectPapers, ← h]
    · have h0 : ¬ (n = 0) := by omega
      simp [selectPapers, h0, h]

theorem selectPapers_spec_witness :
    (0 : Int) < 1 ∧
      selectPapers { papers := [⟨"a", "t1", "s1"⟩, ⟨"b", "t2", "s2"⟩], embeddings := [] }
          (some 1) =
        (selectPapers { papers := [⟨"a", "t1", "s1"⟩, ⟨"b", "t2", "s2"⟩], embeddings := [] }
          none).take 1 :=
  ⟨by decide,
    ((selectPapers_spec { papers := [⟨"a", "t1", "s1"⟩, ⟨"b", "t2", "s2"⟩], embeddings := [] }
      (some 1)).2.2.1 1 (by decide)).1⟩

/-- C3 counterexample: supplying the cap `0` does not truncate the selection to
at most `0` records — Python's `if limit:` treats `0` as "no cap", so one
eligible paper is still selected. -/
theorem selectPapers_limit_zero_cex :
    (selectPapers { papers := [⟨"p1", "t", "a"⟩], embeddings := [] } (some 0)).length = 1 ∧
      ¬ ((selectPapers { papers := [⟨"p1", "t", "a"⟩], embeddings := [] }
            (some 0)).length ≤ 0) := by
  constructor <;> decide

/-! Claim C9: by-identifier mode with an absent identifier. -/

/-- C9: invoking `generate_paper_embedding` with an identifier absent from the
store exits with a non-zero status, prints a message containing "not found",
and leaves the store completely unchanged (in particular no Embedding Record
is written or modified; the source checks existence before even ensuring the
table). -/
theorem paper_embedding_not_found (encode : String → List Nat) (st : Store)
    (pid modelName : String) (habs : ∀ p ∈ st.papers, p.id ≠ pid) :
    (generate_paper_embedding encode st pid modelName).exitCode ≠ 0 ∧
    (∃ pre suf, (generate_paper_embedding encode st pid modelName).stdout =
      [pre ++ "not found" ++ suf]) ∧
    (generate_paper_embedding encode st pid modelName).store = st := by
  have hfind : st.papers.find? (fun p => p.id == pid) = none := by
    rw [List.find?_eq_none]
    intro p hp
    simp only [beq_eq_false_iff_ne, ne_eq, Bool.not_eq_true, beq_eq_false_iff_ne]
    exact habs p hp
  refine ⟨?_, ⟨"ERROR: Paper " ++ pid ++ " ", "", ?_⟩, ?_⟩
  · simp [generate_paper_embedding, hfind]
  · simp [generate_paper_embedding, hfind, String.append_assoc]
  · simp [generate_paper_embedding, hfind]

theorem paper_embedding_not_found_witness :
    (∀ p ∈ ({ papers := [⟨"a", "t", "s"⟩], embeddings := [] } : Store).papers, p.id ≠ "zz") ∧
      (generate_paper_embedding (fun _ => []) { papers := [⟨"a", "t", "s"⟩], embeddings := [] }
          "zz" "m").store =
        { papers := [⟨"a", "t", "s"⟩], embeddings := [] } :=
  ⟨by decide,
    (paper_embedding_not_found (fun _ => []) { papers := [⟨"a", "t", "s"⟩], embeddings := [] }
      "zz" "m" (by decide)).2.2⟩

/-! Claim C10: QUERY environment variable precedence in `query_embedding.py`. -/

/-- C10: in the single-query helper, a set and non-empty `QUERY` environment
variable wins over any command-line argument — the encoded text is exactly its
value and the helper succeeds; the first argument is consulted only when
`QUERY` is unset or empty; and when both are absent or empty the helper exits
non-zero with an "ERROR:" message on standard error and no stdout. -/
theorem query_embedding_env_precedence (encode : String → List Nat)
    (render : Nat → String) (q : String) (args : List String) (hq : q ≠ "") :
    query_embedding encode render (some q) args =
      (0, [renderFloats render (encode q)], []) ∧
    (∀ env : Option String, (env = none ∨ env = some "") →
      pickQuery env args = args.headD "") ∧
    (∀ env : Option String, (env = none ∨ env = some "") → args.headD "" = "" →
      query_embedding encode render env args = (1, [], ["ERROR: No query provided"])) := by
  refine ⟨?_, ?_, ?_⟩
  · simp [query_embedding, pickQuery, hq]
  · rintro env (rfl | rfl) <;> simp [pickQuery]
  · rintro env (rfl | rfl) hargs
    · have hp : pickQuery none args = "" := hargs
      simp [query_embedding, hp]
    · have hp : pickQuery (some "") args = "" := by
        simpa [pickQuery] using hargs
      simp [query_embedding, hp]

theorem query_embedding_env_precedence_witness :
    ("graph neural networks" : String) ≠ "" ∧
      query_embedding (fun _ => [7]) (fun n => toString n) (some "graph neural networks")
          ["cli-arg"] =
        (0, [renderFloats (fun n => toString n) ((fun _ => [7]) "graph neural networks")], []) :=
  ⟨by decide,
    (query_embedding_env_precedence (fun _ => [7]) (fun n => toString n)
      "graph neural networks" ["cli-arg"] (by decide)).1⟩

/-! Pipeline lemmas. -/

theorem rowsFor_upsert_self (tbl : List EmbRow) (row : EmbRow) (pid : String)
    (h : row.paper_id = pid) : rowsFor (upsert tbl row) pid = [row] := by
  simp only [rowsFor, upsert, List.filter_append]
  have h1 : List.filter (fun e => e.paper_id == pid)
      (List.filter (fun e => !(e.paper_id == row.paper_id)) tbl) = [] := by
    rw [List.filter_filter]
    apply List.filter_eq_nil_iff.mpr
    intro e _
    rw [← h]
    cases he : (e.paper_id == row.paper_id) <;> simp [he]
  have h2 : List.filter (fun e => e.paper_id == pid) [row] = [row] := by
    simp [List.filter, h]
  rw [h1, h2, List.nil_append]

theorem rowsFor_upsert_other (tbl : List EmbRow) (row : EmbRow) (pid : String)
    (h : row.paper_id ≠ pid) : rowsFor (upsert tbl row) pid = rowsFor tbl pid := by
  simp only [rowsFor, upsert, List.filter_append]
  have h1 : List.filter (fun e => e.paper_id == pid)
      (List.filter (fun e => !(e.paper_id == row.paper_id)) tbl) =
        List.filter (fun e => e.paper_id == pid) tbl := by
    rw [List.filter_filter]
    apply List.filter_congr
    intro e _
    cases he : (e.paper_id == pid)
    · simp [he]
    · have hee : e.paper_id = pid := by simpa using he
      have hne : (e.paper_id == row.paper_id) = false := by
        simp only [beq_eq_false_iff_ne, ne_eq, hee]
        exact fun hh => h hh.symm
      simp [he, hne]
  have h2 : List.filter (fun e => e.paper_id == pid) [row] = [] := by
    have hb : (row.paper_id == pid) = false := by simpa using h
    simp [List.filter, hb]
  rw [h1, h2, List.append_nil]

/-- Effect of the per-batch fold of upserts on the rows of one identifier. -/
theorem rowsFor_foldl (encode : String → List Nat) (m : String) (pid : String) :
    ∀ (l : List Paper) (tbl : List EmbRow),
      (rowsFor (l.foldl (fun t q => upsert t (rowOf encode m q)) tbl) pid).length =
        if l.any (fun q => q.id == pid) then 1 else (rowsFor tbl pid).length := by
  intro l
  induction l with
  | nil => intro tbl; simp
  | cons q l ih =>
    intro tbl
    rw [List.foldl_cons, ih]
    by_cases hq : q.id = pid
    · have hany : (q :: l).any (fun x => x.id == pid) = true := by
        simp [List.any_cons, hq]
      rw [hany]
      by_cases hl : l.any (fun x => x.id == pid) = true
      · simp [hl]
      · simp only [Bool.not_eq_true] at hl
        rw [hl]
        simp only [if_true, Bool.false_eq_true, if_false]
        rw [rowsFor_upsert_self _ _ _ (by simp [rowOf, hq])]
        simp
    · have hco : (q :: l).any (fun x => x.id == pid) = l.any (fun x => x.id == pid) := by
        simp [List.any_cons, hq]
      rw [hco, rowsFor_upsert_other _ _ _ (by simp [rowOf, hq])]

theorem rowsFor_foldl_untouched (encode : String → List Nat) (m : String) (pid : String) :
    ∀ (l : List Paper) (tbl : List EmbRow), (∀ q ∈ l, q.id ≠ pid) →
      rowsFor (l.foldl (fun t q => upsert t (rowOf encode m q)) tbl) pid =
        rowsFor tbl pid := by
  intro l
  induction l with
  | nil => intro tbl _; rfl
  | cons q l ih =>
    intro tbl hl
    rw [List.foldl_cons, ih _ (fun x hx => hl x (List.mem_cons_of_mem q hx)),
      rowsFor_upsert_other _ _ _ (by simpa [rowOf] using hl q (List.mem_cons_self q l))]

theorem mem_foldl_upsert (encode : String → List Nat) (m : String) :
    ∀ (l : List Paper) (tbl : List EmbRow) (row : EmbRow),
      row ∈ l.foldl (fun t q => upsert t (rowOf encode m q)) tbl →
        row ∈ tbl ∨ ∃ q ∈ l, row = rowOf encode m q := by
  intro l
  induction l with
  | nil => intro tbl row h; exact Or.inl h
  | cons q l ih =>
    intro tbl row h
    rw [List.foldl_cons] at h
    rcases ih _ row h with h' | ⟨x, hx, hrow⟩
    · simp only [upsert, List.mem_append, List.mem_filter, List.mem_singleton] at h'
      rcases h' with ⟨h', _⟩ | h'
      · exact Or.inl h'
      · exact Or.inr ⟨q, List.mem_cons_self q l, h'⟩
    · exact Or.inr ⟨x, List.mem_cons_of_mem q hx, hrow⟩

theorem hasEmbedding_iff_rowsFor (tbl : List EmbRow) (pid : String) :
    hasEmbedding tbl pid = true ↔ rowsFor tbl pid ≠ [] := by
  constructor
  · intro h hnil
    rcases List.any_eq_true.mp h with ⟨e, he, hb⟩
    have := List.filter_eq_nil_iff.mp hnil e he
    simp_all
  · intro h
    by_contra hc
    apply h
    apply List.filter_eq_nil_iff.mpr
    intro e he hb
    exact hc (List.any_eq_true.mpr ⟨e, he, hb⟩)

/-- The final embeddings table of the batch loop is the fold of upserts over
the selected papers (batching does not change the writes). -/
theorem processBatchesAux_fst (encode : String → List Nat) (m : String)
    (total b : Nat) (hb : 0 < b) :
    ∀ (fuel : Nat) (ps : List Paper), ps.length ≤ fuel →
      ∀ (processed : Nat) (tbl : List EmbRow),
        (processBatchesAux encode m total b fuel ps processed tbl).1 =
          ps.foldl (fun t q => upsert t (rowOf encode m q)) tbl := by
  intro fuel
  induction fuel with
  | zero =>
    intro ps hps processed tbl
    have hnil : ps = [] := List.length_eq_zero.mp (Nat.le_zero.mp hps)
    subst hnil; rfl
  | succ fuel ih =>
    intro ps hps processed tbl
    cases ps with
    | nil => rfl
    | cons p ps' =>
      have hdrop : ((p :: ps').drop b).length ≤ fuel := by
        rw [List.length_drop]
        simp only [List.length_cons] at hps ⊢
        omega
      simp only [processBatchesAux]
      rw [ih _ hdrop]
      conv_rhs => rw [← List.take_append_drop b (p :: ps'), List.foldl_append]

theorem processBatches_fst (encode : String → List Nat) (m : String)
    (total b : Nat) (hb : 0 < b) (ps : List Paper) (processed : Nat)
    (tbl : List EmbRow) :
    (processBatches encode m total b ps processed tbl).1 =
      ps.foldl (fun t q => upsert t (rowOf encode m q)) tbl := by
  unfold processBatches
  rw [if_neg (by omega)]
  exact processBatchesAux_fst encode m total b hb ps.length ps (le_refl _) processed tbl

/-- The trace of the batch loop depends only on the number of papers: it is
`traceFromDones` of the cumulative counts. -/
theorem processBatchesAux_snd (encode : String → List Nat) (m : String)
    (total b : Nat) :
    ∀ (fuel : Nat) (ps : List Paper) (processed : Nat) (tbl : List EmbRow),
      (processBatchesAux encode m total b fuel ps processed tbl).2 =
        traceFromDones total (batchDonesAux b fuel ps.length processed) := by
  intro fuel
  induction fuel with
  | zero =>
    intro ps processed tbl
    cases ps <;> rfl
  | succ fuel ih =>
    intro ps processed tbl
    cases ps with
    | nil => rfl
    | cons p ps' =>
      simp only [processBatchesAux]
      rw [ih]
      have hbatch : ((p :: ps').take b).length = min b (ps'.length + 1) := by
        rw [List.length_take, List.length_cons]
      have hrest : ((p :: ps').drop b).length =
          (ps'.length + 1) - min b (ps'.length + 1) := by
        rw [List.length_drop, List.length_cons]
        omega
      rw [hbatch, hrest]
      simp only [List.length_cons, batchDonesAux, traceFromDones, List.map_cons,
        List.flatten_cons, List.cons_append]

theorem processBatches_snd (encode : String → List Nat) (m : String)
    (total b : Nat) (ps : List Paper) (processed : Nat) (tbl : List EmbRow) :
    (processBatches encode m total b ps processed tbl).2 =
      traceFromDones total (batchDones b ps.length processed) := by
  unfold processBatches batchDones
  by_cases hb : b = 0
  · rw [if_pos hb, if_pos hb]; rfl
  · rw [if_neg hb, if_neg hb]
    exact processBatchesAux_snd encode m total b ps.length ps processed tbl

theorem batchDonesAux_length (b : Nat) (hb : 0 < b) :
    ∀ (fuel r done : Nat), r ≤ fuel →
      (batchDonesAux b fuel r done).length = (r + (b - 1)) / b := by
  intro fuel
  induction fuel with
  | zero =>
    intro r done hr
    have hr0 : r = 0 := Nat.le_zero.mp hr
    subst hr0
    simp only [batchDonesAux, List.length_nil]
    rw [Nat.zero_add, Nat.div_eq_of_lt (by omega)]
  | succ fuel ih =>
    intro r done hr
    cases r with
    | zero =>
      simp only [batchDonesAux, List.length_nil]
      rw [Nat.zero_add, Nat.div_eq_of_lt (by omega)]
    | succ r =>
      simp only [batchDonesAux, List.length_cons]
      rw [ih _ _ (by omega)]
      by_cases hbr : r + 1 ≤ b
      · have hmin : min b (r + 1) = r + 1 := by omega
        rw [hmin]
        have h1 : r + 1 - (r + 1) + (b - 1) = b - 1 := by omega
        rw [h1, Nat.div_eq_of_lt (by omega)]
        have h2 : r + 1 + (b - 1) = r + b := by omega
        rw [h2, Nat.add_div_right _ hb, Nat.div_eq_of_lt (by omega)]
      · have hmin : min b (r + 1) = b := by omega
        rw [hmin]
        have h2 : r + 1 + (b - 1) = (r + 1 - b + (b - 1)) + b := by omega
        rw [h2, Nat.add_div_right _ hb]

theorem batchDonesAux_increments_sum (b : Nat) (hb : 0 < b) :
    ∀ (fuel r done : Nat), r ≤ fuel →
      (incrementsFrom done (batchDonesAux b fuel r done)).sum = r := by
  intro fuel
  induction fuel with
  | zero =>
    intro r done hr
    have hr0 : r = 0 := Nat.le_zero.mp hr
    subst hr0; rfl
  | succ fuel ih =>
    intro r done hr
    cases r with
    | zero => rfl
    | succ r =>
      simp only [batchDonesAux]
      have hstep : ∀ (prev a : Nat) (l : List Nat),
          incrementsFrom prev (a :: l) = (a - prev) :: incrementsFrom a l :=
        fun _ _ _ => rfl
      rw [hstep, List.sum_cons, ih _ _ (by omega)]
      omega

theorem batchDonesAux_getLast (b : Nat) (hb : 0 < b) :
    ∀ (fuel r done : Nat), 0 < r → r ≤ fuel →
      (batchDonesAux b fuel r done).getLast? = some (done + r) := by
  intro fuel
  induction fuel with
  | zero => intro r done h0 hr; omega
  | succ fuel ih =>
    intro r done h0 hr
    cases r with
    | zero => omega
    | succ r =>
      simp only [batchDonesAux]
      by_cases hend : r + 1 - min b (r + 1) = 0
      · have hmin : min b (r + 1) = r + 1 := by omega
        rw [hend, hmin]
        have hnil : batchDonesAux b fuel 0 (done + (r + 1)) = [] := by
          cases fuel <;> rfl
        rw [hnil]
        rfl
      · have ihh := ih (r + 1 - min b (r + 1)) (done + min b (r + 1))
          (by omega) (by omega)
        cases hl : batchDonesAux b fuel (r + 1 - min b (r + 1)) (done + min b (r + 1)) with
        | nil => rw [hl] at ihh; simp at ihh
        | cons x xs =>
          rw [hl] at ihh
          rw [List.getLast?_cons_cons, ihh]
          congr 1
          omega

theorem progressPairs_append (l1 l2 : List Event) :
    progressPairs (l1 ++ l2) = progressPairs l1 ++ progressPairs l2 := by
  simp [progressPairs, List.filterMap_append]

theorem commitCount_append (l1 l2 : List Event) :
    commitCount (l1 ++ l2) = commitCount l1 + commitCount l2 := by
  simp [commitCount, List.filter_append]

theorem progressPairs_traceFromDones (total : Nat) :
    ∀ dones : List Nat, progressPairs (traceFromDones total dones) =
      dones.map (fun d => (d, total)) := by
  intro dones
  induction dones with
  | nil => rfl
  | cons d ds ih =>
    have hcons : traceFromDones total (d :: ds) =
        (Event.progress d total :: (if d % 100 = 0 then [Event.commit] else [])) ++
          traceFromDones total ds := rfl
    rw [hcons, progressPairs_append, ih, List.map_cons]
    by_cases hd : d % 100 = 0 <;> simp [hd, progressPairs]

theorem commitCount_traceFromDones (total : Nat) :
    ∀ dones : List Nat, commitCount (traceFromDones total dones) =
      (dones.filter (fun d => d % 100 == 0)).length := by
  intro dones
  induction dones with
  | nil => rfl
  | cons d ds ih =>
    have hcons : traceFromDones total (d :: ds) =
        (Event.progress d total :: (if d % 100 = 0 then [Event.commit] else [])) ++
          traceFromDones total ds := rfl
    have hpc : ∀ x y : Nat, (Event.progress x y == Event.commit) = false := by
      intro x y
      simp [beq_eq_false_iff_ne]
    rw [hcons, commitCount_append, ih]
    by_cases hd : d % 100 = 0
    · have hdb : (d % 100 == 0) = true := by simpa using hd
      simp [hd, hdb, commitCount, List.filter, hpc]
      omega
    · have hdb : (d % 100 == 0) = false := by simpa using hd
      simp [hd, hdb, commitCount, List.filter, hpc]

/-! Run-level characterizations of `generate_embeddings`. -/

theorem generate_embeddings_no_work (encode : String → List Nat) (st : Store)
    (m : String) (limit : Option Int) (b : Nat)
    (h : selectPapers st limit = []) :
    generate_embeddings encode st m limit b =
      { store := st, trace := [Event.msg "No papers need embeddings."] } := by
  unfold generate_embeddings
  rw [if_pos (by simp [h])]

theorem generate_embeddings_store (encode : String → List Nat) (st : Store)
    (m : String) (limit : Option Int) (b : Nat) (hb : 0 < b)
    (hne : selectPapers st limit ≠ []) :
    (generate_embeddings encode st m limit b).store =
      { papers := st.papers,
        embeddings := (selectPapers st limit).foldl
          (fun t q => upsert t (rowOf encode m q)) st.embeddings } := by
  unfold generate_embeddings
  rw [if_neg (by simpa [List.isEmpty_iff] using hne)]
  simp only [processBatches_fst encode m _ b hb]

theorem generate_embeddings_papers (encode : String → List Nat) (st : Store)
    (m : String) (limit : Option Int) (b : Nat) :
    (generate_embeddings encode st m limit b).store.papers = st.papers := by
  unfold generate_embeddings
  by_cases h : (selectPapers st limit).isEmpty <;> simp [h]

theorem generate_embeddings_trace (encode : String → List Nat) (st : Store)
    (m : String) (limit : Option Int) (b : Nat)
    (hne : selectPapers st limit ≠ []) :
    (generate_embeddings encode st m limit b).trace =
      Event.msg ("Found " ++ toString (selectPapers st limit).length ++
          " papers to process") ::
        (traceFromDones (selectPapers st limit).length
            (batchDones b (selectPapers st limit).length 0) ++
          [Event.commit,
            Event.msg ("Done! Generated embeddings for " ++
              toString (selectPapers st limit).length ++ " papers.")]) := by
  unfold generate_embeddings
  rw [if_neg (by simpa [List.isEmpty_iff] using hne)]
  simp only [processBatches_snd]

theorem needsEmbedding_iff (tbl : List EmbRow) (p : Paper) :
    needsEmbedding tbl p = true ↔
      p.title ≠ "" ∧ p.abstract ≠ "" ∧ hasEmbedding tbl p.id = false := by
  simp only [needsEmbedding, Bool.and_eq_true, Bool.not_eq_true', beq_eq_false_iff_ne,
    ne_eq, Bool.not_eq_true]
  tauto

theorem mem_selectPapers_none (st : Store) (p : Paper) :
    p ∈ selectPapers st none ↔
      p ∈ st.papers ∧ p.title ≠ "" ∧ p.abstract ≠ "" ∧
        hasEmbedding st.embeddings p.id = false := by
  simp only [selectPapers, List.mem_filter, needsEmbedding_iff]

/-- Rows written by a full run: one selected paper gives exactly one final row. -/
theorem run_rowsFor_written (encode : String → List Nat) (st : Store) (m : String)
    (b : Nat) (hb : 0 < b) (p : Paper) (hp : p ∈ selectPapers st none) :
    (rowsFor (generate_embeddings encode st m none b).store.embeddings p.id).length
      = 1 := by
  have hne : selectPapers st none ≠ [] := by
    intro h; rw [h] at hp; cases hp
  simp only [generate_embeddings_store encode st m none b hb hne]
  rw [rowsFor_foldl]
  rw [if_pos (List.any_eq_true.mpr ⟨p, hp, by simp⟩)]

/-- Rows of identifiers not among the selected papers are untouched by a run. -/
theorem run_rowsFor_untouched (encode : String → List Nat) (st : Store) (m : String)
    (b : Nat) (hb : 0 < b) (pid : String)
    (h : ∀ q ∈ selectPapers st none, q.id ≠ pid) :
    rowsFor (generate_embeddings encode st m none b).store.embeddings pid =
      rowsFor st.embeddings pid := by
  by_cases hsel : selectPapers st none = []
  · rw [generate_embeddings_no_work encode st m none b hsel]
  · simp only [generate_embeddings_store encode st m none b hb hsel]
    exact rowsFor_foldl_untouched encode m pid _ st.embeddings h

/-- C2: after one full batch run (no cap), every Source Record with non-empty
title, non-empty abstract and no prior Embedding Record has exactly one
Embedding Record; the run selects (hence writes) only identifiers with no
prior embedding, and rows of previously-embedded identifiers are unchanged. -/
theorem batch_run_invariant (encode : String → List Nat) (st : Store)
    (m : String) (b : Nat) (hb : 0 < b) :
    (∀ p ∈ st.papers, p.title ≠ "" → p.abstract ≠ "" →
      hasEmbedding st.embeddings p.id = false →
      (rowsFor (generate_embeddings encode st m none b).store.embeddings p.id).length
        = 1) ∧
    (∀ p ∈ selectPapers st none, hasEmbedding st.embeddings p.id = false) ∧
    (∀ pid : String, hasEmbedding st.embeddings pid = true →
      rowsFor (generate_embeddings encode st m none b).store.embeddings pid =
        rowsFor st.embeddings pid) := by
  refine ⟨?_, ?_, ?_⟩
  · intro p hp ht ha hemb
    exact run_rowsFor_written encode st m b hb p
      ((mem_selectPapers_none st p).mpr ⟨hp, ht, ha, hemb⟩)
  · intro p hp
    exact ((mem_selectPapers_none st p).mp hp).2.2.2
  · intro pid hemb
    apply run_rowsFor_untouched encode st m b hb pid
    intro q hq hqid
    have hq' := ((mem_selectPapers_none st q).mp hq).2.2.2
    rw [hqid] at hq'
    rw [hq'] at hemb
    cases hemb

theorem batch_run_invariant_witness :
    (rowsFor (generate_embeddings (fun _ => [0])
        { papers := [⟨"a", "t", "s"⟩], embeddings := [] } "m" none 32).store.embeddings
      "a").length = 1 :=
  (batch_run_invariant (fun _ => [0]) { papers := [⟨"a", "t", "s"⟩], embeddings := [] }
      "m" 32 (by decide)).1
    ⟨"a", "t", "s"⟩ (by decide) (by decide) (by decide) (by decide)

/-- C8: a second full run on the unchanged store (same model name) selects
zero records, reports "no work", and has no effect on the store at all. -/
theorem second_run_no_work (encode : String → List Nat) (st : Store)
    (m : String) (b : Nat) (hb : 0 < b) :
    selectPapers (generate_embeddings encode st m none b).store none = [] ∧
    generate_embeddings encode (generate_embeddings encode st m none b).store m none b
      = { store := (generate_embeddings encode st m none b).store,
          trace := [Event.msg "No papers need embeddings."] } := by
  have hpapers : (generate_embeddings encode st m none b).store.papers = st.papers :=
    generate_embeddings_papers encode st m none b
  have hsel2 : selectPapers (generate_embeddings encode st m none b).store none = [] := by
    apply List.filter_eq_nil_iff.mpr
    intro p hp hneed
    rw [hpapers] at hp
    rcases (needsEmbedding_iff _ p).mp hneed with ⟨ht, ha, hnoemb⟩
    by_cases hprior : hasEmbedding st.embeddings p.id = true
    · -- previously embedded: its rows are untouched, so it still has one
      have huntouched :
          rowsFor (generate_embeddings encode st m none b).store.embeddings p.id =
            rowsFor st.embeddings p.id := by
        apply run_rowsFor_untouched encode st m b hb p.id
        intro q hq hqid
        have hq' := ((mem_selectPapers_none st q).mp hq).2.2.2
        rw [hqid] at hq'
        rw [hq'] at hprior
        cases hprior
      have hrows := (hasEmbedding_iff_rowsFor st.embeddings p.id).mp hprior
      have : hasEmbedding (generate_embeddings encode st m none b).store.embeddings
          p.id = true :=
        (hasEmbedding_iff_rowsFor _ p.id).mpr (by rw [huntouched]; exact hrows)
      rw [this] at hnoemb
      cases hnoemb
    · -- newly eligible: it was selected, so the run wrote exactly one row
      have hsel : p ∈ selectPapers st none :=
        (mem_selectPapers_none st p).mpr
          ⟨hp, ht, ha, by revert hprior; cases hasEmbedding st.embeddings p.id <;> simp⟩
      have hone := run_rowsFor_written encode st m b hb p hsel
      have : hasEmbedding (generate_embeddings encode st m none b).store.embeddings
          p.id = true := by
        apply (hasEmbedding_iff_rowsFor _ p.id).mpr
        intro hnil
        rw [hnil] at hone
        cases hone
      rw [this] at hnoemb
      cases hnoemb
  exact ⟨hsel2, generate_embeddings_no_work encode _ m none b hsel2⟩

theorem second_run_no_work_witness :
    selectPapers (generate_embeddings (fun _ => [0])
        { papers := [⟨"a", "t", "s"⟩], embeddings := [] } "m" none 32).store none = [] :=
  (second_run_no_work (fun _ => [0]) { papers := [⟨"a", "t", "s"⟩], embeddings := [] }
    "m" 32 (by decide)).1

/-- A double computed as `t / t` for positive `t` is exactly 1. -/
theorem floatRound53_self (t : Nat) (h : 0 < t) :
    floatRound53 t t = (2 ^ 52, -52) := by
  have h0 : ¬ (t = 0 ∨ t = 0) := by omega
  have hok : pow2LeRat t t 0 = true := by
    simp [pow2LeRat]
  have hsc : scaledRound t t 52 = 2 ^ 52 := by
    have hq : t * 2 ^ 52 / t = 2 ^ 52 := Nat.mul_div_cancel_left _ h
    have hr : t * 2 ^ 52 % t = 0 := Nat.mul_mod_right t _
    simp [scaledRound, roundHalfEvenDiv, hq, hr, h]
  simp only [floatRound53, h0, if_false, sub_self, hok, if_true]
  norm_num [hsc]

theorem pctTenths_total (total : Nat) (h : 0 < total) :
    pctTenths total total = 1000 := by
  simp only [pctTenths, floatRound53_self total h]
  decide

theorem fmt1_thousand : fmt1 1000 = "100.0" := by decide

theorem progressPairs_msg_cons (s : String) (rest : List Event) :
    progressPairs (Event.msg s :: rest) = progressPairs rest := rfl

theorem progressPairs_terminal (s : String) :
    progressPairs [Event.commit, Event.msg s] = [] := rfl

/-- The progress pairs of a run with a non-empty selection are exactly the
cumulative batch counts paired with the constant total. -/
theorem run_progressPairs (encode : String → List Nat) (st : Store) (m : String)
    (limit : Option Int) (b : Nat) (hne : selectPapers st limit ≠ []) :
    progressPairs (generate_embeddings encode st m limit b).trace =
      (batchDones b (selectPapers st limit).length 0).map
        (fun d => (d, (selectPapers st limit).length)) := by
  rw [generate_embeddings_trace encode st m limit b hne, progressPairs_msg_cons,
    progressPairs_append, progressPairs_terminal, List.append_nil,
    progressPairs_traceFromDones]

/-- C4: for every run over a non-empty selection (positive batch size), the
progress lines are exactly the cumulative batch counts: the pairs are
`batchDones`, there is exactly one line per batch (`⌈total/b⌉` lines), every
line carries the selected total, the per-batch increments sum to the total,
the final line reports `total/total`, its percentage renders as `"100.0"`,
and each line renders in the exact
`Processed <done>/<total> papers (<pct>% complete)` form with one decimal
digit. -/
theorem progress_line_contract (encode : String → List Nat) (st : Store)
    (m : String) (limit : Option Int) (b : Nat) (hb : 0 < b)
    (hne : selectPapers st limit ≠ []) :
    progressPairs (generate_embeddings encode st m limit b).trace =
      (batchDones b (selectPapers st limit).length 0).map
        (fun d => (d, (selectPapers st limit).length)) ∧
    (progressPairs (generate_embeddings encode st m limit b).trace).length =
      ((selectPapers st limit).length + (b - 1)) / b ∧
    (∀ pr ∈ progressPairs (generate_embeddings encode st m limit b).trace,
      pr.2 = (selectPapers st limit).length) ∧
    (increments ((progressPairs (generate_embeddings encode st m limit b).trace).map
      Prod.fst)).sum = (selectPapers st limit).length ∧
    (progressPairs (generate_embeddings encode st m limit b).trace).getLast? =
      some ((selectPapers st limit).length, (selectPapers st limit).length) ∧
    fmt1 (pctTenths (selectPapers st limit).length (selectPapers st limit).length) =
      "100.0" ∧
    (∀ pr ∈ progressPairs (generate_embeddings encode st m limit b).trace,
      progressLineStr pr.1 pr.2 =
        "Processed " ++ toString pr.1 ++ "/" ++ toString pr.2 ++
          " papers (" ++ fmt1 (pctTenths pr.1 pr.2) ++ "% complete)") := by
  have hpos : 0 < (selectPapers st limit).length := List.length_pos.mpr hne
  have hb0 : b ≠ 0 := by omega
  have hpairs := run_progressPairs encode st m limit b hne
  have hdones : batchDones b (selectPapers st limit).length 0 =
      batchDonesAux b (selectPapers st limit).length (selectPapers st limit).length 0 := by
    unfold batchDones
    rw [if_neg hb0]
  refine ⟨hpairs, ?_, ?_, ?_, ?_, ?_, ?_⟩
  · rw [hpairs, List.length_map, hdones]
    exact batchDonesAux_length b hb _ _ 0 (le_refl _)
  · intro pr hpr
    rw [hpairs] at hpr
    rcases List.mem_map.mp hpr with ⟨d, _, rfl⟩
    rfl
  · rw [hpairs, List.map_map]
    have hmap : ∀ l : List Nat,
        List.map (Prod.fst ∘ fun d => (d, (selectPapers st limit).length)) l = l := by
      intro l
      induction l with
      | nil => rfl
      | cons x xs ih => simp [ih]
    rw [hmap, hdones, increments]
    exact batchDonesAux_increments_sum b hb _ _ 0 (le_refl _)
  · rw [hpairs, List.getLast?_map, hdones,
      batchDonesAux_getLast b hb _ _ 0 hpos (le_refl _)]
    simp
  · rw [pctTenths_total _ hpos, fmt1_thousand]
  · intro pr _
    rfl

theorem progress_line_contract_witness :
    (0 : Nat) < 2 ∧
      selectPapers ⟨[⟨"a", "t", "s"⟩, ⟨"b", "t", "s"⟩, ⟨"c", "t", "s"⟩], []⟩ none ≠ [] ∧
      progressPairs (generate_embeddings (fun _ => [0])
          ⟨[⟨"a", "t", "s"⟩, ⟨"b", "t", "s"⟩, ⟨"c", "t", "s"⟩], []⟩ "m" none 2).trace =
        (batchDones 2
            (selectPapers ⟨[⟨"a", "t", "s"⟩, ⟨"b", "t", "s"⟩, ⟨"c", "t", "s"⟩], []⟩
              none).length 0).map
          (fun d =>
            (d, (selectPapers ⟨[⟨"a", "t", "s"⟩, ⟨"b", "t", "s"⟩, ⟨"c", "t", "s"⟩], []⟩
              none).length)) :=
  ⟨by decide, by decide,
    (progress_line_contract (fun _ => [0])
      ⟨[⟨"a", "t", "s"⟩, ⟨"b", "t", "s"⟩, ⟨"c", "t", "s"⟩], []⟩
      "m" none 2 (by decide) (by decide)).1⟩

/-- C5 (amended): during a batch run, the trace interleaves one progress event
per batch with a commit exactly when the cumulative processed count is a
multiple of 100 (`traceFromDones`), followed by one unconditional commit after
the final batch; the number of commits is the number of multiple-of-100
cumulative counts plus one. -/
theorem commit_schedule (encode : String → List Nat) (st : Store)
    (m : String) (limit : Option Int) (b : Nat) (hb : 0 < b)
    (hne : selectPapers st limit ≠ []) :
    (generate_embeddings encode st m limit b).trace =
      Event.msg ("Found " ++ toString (selectPapers st limit).length ++
          " papers to process") ::
        (traceFromDones (selectPapers st limit).length
            (batchDones b (selectPapers st limit).length 0) ++
          [Event.commit,
            Event.msg ("Done! Generated embeddings for " ++
              toString (selectPapers st limit).length ++ " papers.")]) ∧
    commitCount (generate_embeddings encode st m limit b).trace =
      ((batchDones b (selectPapers st limit).length 0).filter
        (fun d => d % 100 == 0)).length + 1 := by
  have htr := generate_embeddings_trace encode st m limit b hne
  refine ⟨htr, ?_⟩
  rw [htr]
  have hmc : ∀ s : String, (Event.msg s == Event.commit) = false := by
    intro s; simp [beq_eq_false_iff_ne]
  have hmsg : ∀ (s : String) (rest : List Event),
      commitCount (Event.msg s :: rest) = commitCount rest := by
    intro s rest
    simp [commitCount, List.filter, hmc]
  have hterm : ∀ s : String, commitCount [Event.commit, Event.msg s] = 1 := by
    intro s
    simp [commitCount, List.filter, hmc]
  rw [hmsg, commitCount_append, commitCount_traceFromDones, hterm]

/-- C5 counterexample: a store with 65 records needing embeddings and batch
size 32 — the cumulative counts 32, 64, 65 never reach a multiple of 100, so
the run issues exactly one commit (the unconditional final one), not one at
processed=65 plus one more at the end. -/
theorem commit_65_records_cex :
    commitCount (generate_embeddings (fun _ => [])
        ⟨List.replicate 65 ⟨"x", "t", "a"⟩, []⟩ "all-MiniLM-L6-v2" none 32).trace = 1 ∧
      ¬ (commitCount (generate_embeddings (fun _ => [])
        ⟨List.replicate 65 ⟨"x", "t", "a"⟩, []⟩ "all-MiniLM-L6-v2" none 32).trace
          = 2) := by
  constructor
  · decide
  · decide

theorem commit_schedule_witness :
    commitCount (generate_embeddings (fun _ => [0])
        ⟨[⟨"a", "t", "s"⟩, ⟨"b", "t", "s"⟩, ⟨"c", "t", "s"⟩], []⟩ "m" none 2).trace =
      ((batchDones 2
          (selectPapers ⟨[⟨"a", "t", "s"⟩, ⟨"b", "t", "s"⟩, ⟨"c", "t", "s"⟩], []⟩
            none).length 0).filter (fun d => d % 100 == 0)).length + 1 :=
  (commit_schedule (fun _ => [0])
    ⟨[⟨"a", "t", "s"⟩, ⟨"b", "t", "s"⟩, ⟨"c", "t", "s"⟩], []⟩
    "m" none 2 (by decide) (by decide)).2

/-- C6: the serialized blob is 4 bytes per component for every vector, and
consequently every embeddings-table row present after a run either predates
the run or carries a blob of exactly 4 × the model's output dimension. -/
theorem blob_length (encode : String → List Nat) (dim : Nat)
    (hdim : ∀ t, (encode t).length = dim) (st : Store) (m : String)
    (limit : Option Int) (b : Nat) :
    (∀ v : List Nat, (serialize_embedding v).length = 4 * v.length) ∧
    (∀ row ∈ (generate_embeddings encode st m limit b).store.embeddings,
      row ∈ st.embeddings ∨ row.vector.length = 4 * dim) := by
  refine ⟨length_serialize, ?_⟩
  by_cases hsel : selectPapers st limit = []
  · rw [generate_embeddings_no_work encode st m limit b hsel]
    exact fun row hr => Or.inl hr
  · by_cases hb : b = 0
    · have hsame : (generate_embeddings encode st m limit b).store.embeddings =
          st.embeddings := by
        unfold generate_embeddings
        rw [if_neg (by simpa [List.isEmpty_iff] using hsel)]
        simp [processBatches, hb]
      rw [hsame]
      exact fun row hr => Or.inl hr
    · simp only [generate_embeddings_store encode st m limit b (by omega) hsel]
      intro row hr
      rcases mem_foldl_upsert encode m _ _ row hr with h | ⟨q, _, hrow⟩
      · exact Or.inl h
      · right
        rw [hrow]
        simp [rowOf, length_serialize, hdim]

theorem blob_length_witness :
    (serialize_embedding [5]).length = 4 * ([5] : List Nat).length :=
  (blob_length (fun _ => [5]) 1 (fun _ => rfl) ⟨[], []⟩ "m" none 32).1 [5]

end ArxivEmbed
